import Mathlib

/-!
Formal model of the ant colony optimization engine of this repository
(`ants/views.py`).

The engine is embedded shallowly:

* `distance` mirrors `views.distance` over the real numbers; the geodesic
  branch delegates to `geodesicKm`, modelled from the spec since the
  `geopy` library is external to the repository.
* The optimization core (`generate_paths`, `calculate_probabilities`,
  `update_pheromone`, `ant_colony_optimization`) is embedded generically
  over a linear ordered field `α` (instantiated with `ℚ` in concrete
  witnesses).  Three aspects of the Python code are abstracted into
  parameters:
  - `d : ℕ → ℕ → α` is the node-indexed distance function, standing for
    `distance(points[i], points[j], speed)`;
  - `fpow : α → α → α` stands for the floating point power `x ** y`
    (the claims under study never rely on properties of `**`);
  - `choose` stands for the random draw `np.random.choice(unvisited,
    p=probabilities)`: it receives the step counter and the computed
    probability vector and returns a raw value that is reduced modulo
    `unvisited.length` to select an element of `unvisited`, exactly the
    support that `np.random.choice` can return.
* The pheromone matrix is a total function `ℕ → ℕ → α`; the driver only
  ever touches indices below `n_locations`.
-/

namespace AntColony

/-- Conversion factor constant of `views.py` (kilometres per degree). -/
noncomputable def CONVERSION_FACTOR : ℝ := 111.32

/-- Mean Earth radius in kilometres, used by the modelled geodesic. -/
noncomputable def EARTH_RADIUS_KM : ℝ := 6371.0088

/-- Modelled from the spec: the non-`fast` branch of `views.distance` calls
`geopy.distance.geodesic(coord1, coord2).kilometers`, which is not part of
this repository's sources.  The spec describes it as the true geodesic
distance in kilometres between two latitude/longitude points, via a standard
great-circle computation; we model it with the haversine great-circle
formula on a sphere of mean Earth radius. -/
noncomputable def geodesicKm (coord1 coord2 : ℝ × ℝ) : ℝ :=
  let phi1 := coord1.1 * (Real.pi / 180)
  let phi2 := coord2.1 * (Real.pi / 180)
  let lam1 := coord1.2 * (Real.pi / 180)
  let lam2 := coord2.2 * (Real.pi / 180)
  2 * EARTH_RADIUS_KM *
    Real.arcsin (Real.sqrt
      (Real.sin ((phi2 - phi1) / 2) ^ 2 +
        Real.cos phi1 * Real.cos phi2 * Real.sin ((lam2 - lam1) / 2) ^ 2))

/-- Embedding of `views.distance(point1, point2, speed)`: for `speed ==
"fast"` the Euclidean distance of the coordinate pairs scaled by
`CONVERSION_FACTOR`, otherwise the geodesic distance. -/
noncomputable def distance (point1 point2 : ℝ × ℝ) (speed : String) : ℝ :=
  if speed = "fast" then
    Real.sqrt ((point1.1 - point2.1) ^ 2 + (point1.2 - point2.2) ^ 2) * CONVERSION_FACTOR
  else
    geodesicKm point1 point2

section Engine

variable {α : Type*} [LinearOrderedField α]

/-- Pointwise update of one entry of the pheromone matrix
(`pheromone[i, j] = v`). -/
def matUpdate (M : ℕ → ℕ → α) (i j : ℕ) (v : α) : ℕ → ℕ → α :=
  fun a b => if a = i ∧ b = j then v else M a b

/-- The statement `pheromone *= evaporation_rate` of `update_pheromone`:
every entry is multiplied by the rate. -/
def evaporate (M : ℕ → ℕ → α) (rate : α) : ℕ → ℕ → α :=
  fun a b => M a b * rate

/-- The statement `pheromone[i, j] += amt`. -/
def depositEdge (M : ℕ → ℕ → α) (i j : ℕ) (amt : α) : ℕ → ℕ → α :=
  matUpdate M i j (M i j + amt)

/-- Apply `depositEdge` in order along a list of directed edges with a fixed
amount.  Helper used to reason about `deposit`. -/
def depositList (M : ℕ → ℕ → α) (es : List (ℕ × ℕ)) (amt : α) : ℕ → ℕ → α :=
  es.foldl (fun acc e => depositEdge acc e.1 e.2 amt) M

/-- The directed edges touched by the deposit loop of `update_pheromone` for
one path: the consecutive edges `(path[i], path[i+1])` for
`i in range(n_locations - 1)` followed by the closing edge
`(path[-1], path[0])`. -/
def closedEdges (path : List ℕ) (n : ℕ) : List (ℕ × ℕ) :=
  ((List.range (n - 1)).map fun i => (path.getD i 0, path.getD (i + 1) 0)) ++
    [(path.getLastD 0, path.getD 0 0)]

/-- The per-path body of `update_pheromone`:
`for i in range(n_locations - 1): pheromone[path[i], path[i+1]] += Q / path_length`
followed by `pheromone[path[-1], path[0]] += Q / path_length`. -/
def deposit (M : ℕ → ℕ → α) (path : List ℕ) (path_length Q : α) (n : ℕ) :
    ℕ → ℕ → α :=
  depositEdge
    ((List.range (n - 1)).foldl
      (fun acc i => depositEdge acc (path.getD i 0) (path.getD (i + 1) 0) (Q / path_length))
      M)
    (path.getLastD 0) (path.getD 0 0) (Q / path_length)

/-- Embedding of `views.update_pheromone(pheromone, paths, path_lengths,
evaporation_rate, Q, n_locations)`: evaporate once, then deposit along each
path paired with its length. -/
def update_pheromone (M : ℕ → ℕ → α) (paths : List (List ℕ))
    (path_lengths : List α) (evaporation_rate Q : α) (n : ℕ) : ℕ → ℕ → α :=
  (paths.zip path_lengths).foldl (fun acc pl => deposit acc pl.1 pl.2 Q n)
    (evaporate M evaporation_rate)

/-- One pheromone-matrix operation, used to state the nonnegativity
invariant over an arbitrary finite sequence of evaporation and deposit
calls. -/
inductive PherOp (α : Type*) where
  | evap (rate : α)
  | dep (path : List ℕ) (path_length Q : α) (n : ℕ)

/-- Apply one pheromone operation. -/
def applyOp (M : ℕ → ℕ → α) : PherOp α → (ℕ → ℕ → α)
  | PherOp.evap rate => evaporate M rate
  | PherOp.dep path path_length Q n => deposit M path path_length Q n

/-- Apply a sequence of pheromone operations in order. -/
def applyOps (M : ℕ → ℕ → α) (ops : List (PherOp α)) : ℕ → ℕ → α :=
  ops.foldl applyOp M

/-- Side conditions of the nonnegativity claim: evaporation rates lie in
`[0, 1]`; deposits have nonnegative `Q` and a nonnegative path length (path
lengths computed by the path builder are sums of distances, hence
nonnegative). -/
def validOp : PherOp α → Prop
  | PherOp.evap rate => 0 ≤ rate ∧ rate ≤ 1
  | PherOp.dep _ path_length Q _ => 0 ≤ path_length ∧ 0 ≤ Q

/-- Embedding of `views.calculate_probabilities`: score each unvisited node
by `pheromone[current, j] ** alpha / distance(current, j) ** beta`, then
divide every score by the sum of the scores. -/
def calculate_probabilities (pheromone : ℕ → ℕ → α) (current_point : ℕ)
    (unvisited : List ℕ) (d : ℕ → ℕ → α) (fpow : α → α → α)
    (alpha beta : α) : List α :=
  let scores := unvisited.map fun j =>
    fpow (pheromone current_point j) alpha / fpow (d current_point j) beta
  scores.map fun s => s / scores.sum

/-- Embedding of `np.where(np.logical_not(visited))[0]`: the indices whose
`visited` flag is `false`, in increasing order. -/
def whereFalse (visited : List Bool) : List ℕ :=
  (List.range visited.length).filter fun j => !visited.getD j true

/-- The `while False in visited` loop of `generate_paths`, with explicit
fuel (the caller passes fuel `n`, which dominates the number of
iterations).  State: remaining fuel, visited flags, current node, path so
far, accumulated length, step counter for the sampler. -/
def buildLoop (pheromone : ℕ → ℕ → α) (d : ℕ → ℕ → α) (fpow : α → α → α)
    (alpha beta : α) (choose : ℕ → List α → ℕ) :
    ℕ → List Bool → ℕ → List ℕ → α → ℕ → List ℕ × α
  | 0, _, _, path, path_length, _ => (path, path_length)
  | fuel + 1, visited, current_point, path, path_length, t =>
    if false ∈ visited then
      let unvisited := whereFalse visited
      let probabilities :=
        calculate_probabilities pheromone current_point unvisited d fpow alpha beta
      let next_point := unvisited.getD (choose t probabilities % unvisited.length) 0
      buildLoop pheromone d fpow alpha beta choose fuel (visited.set next_point true)
        next_point (path ++ [next_point]) (path_length + d current_point next_point)
        (t + 1)
    else (path, path_length)

/-- One ant's walk inside `generate_paths`: `visited = [False] *
n_locations; current = start; visited[current] = True; path = [current];
path_length = 0` followed by the `while False in visited` loop. -/
def build_path (pheromone : ℕ → ℕ → α) (d : ℕ → ℕ → α) (fpow : α → α → α)
    (alpha beta : α) (choose : ℕ → List α → ℕ)
    (n_locations starting_point : ℕ) : List ℕ × α :=
  buildLoop pheromone d fpow alpha beta choose n_locations
    ((List.replicate n_locations false).set starting_point true)
    starting_point [starting_point] 0 0

/-- Embedding of `views.generate_paths(ants, starting_point, n_locations,
points, pheromone, alpha, beta, speed)`: one walk per ant, collecting the
paths and the path lengths.  The sampler is indexed by the ant number. -/
def generate_paths (ants starting_point n_locations : ℕ) (d : ℕ → ℕ → α)
    (pheromone : ℕ → ℕ → α) (alpha beta : α) (fpow : α → α → α)
    (choose : ℕ → ℕ → List α → ℕ) : List (List ℕ) × List α :=
  let results := (List.range ants).map fun ant =>
    build_path pheromone d fpow alpha beta (choose ant) n_locations starting_point
  (results.map Prod.fst, results.map Prod.snd)

/-- Sum of the consecutive-edge distances of a path: the open-tour length
accumulated by `generate_paths`. -/
def pathCost (d : ℕ → ℕ → α) : List ℕ → α
  | [] => 0
  | [_] => 0
  | a :: b :: rest => d a b + pathCost d (b :: rest)

/-- Python's `min` on a nonempty list (with a default for `[]`, which the
driver only hits when `ants = 0`). -/
def listMinD (l : List α) (dflt : α) : α :=
  match l with
  | [] => dflt
  | a :: rest => rest.foldl min a

/-- Driver state of `ant_colony_optimization`.  `best_path_length = ⊤`
models the initial `np.inf`; a progress-log entry is modelled as the data
`(min(path_lengths), paths[path_lengths.index(min(path_lengths))])` carried
by the formatted log string. -/
structure RunState (α : Type*) where
  pheromone : ℕ → ℕ → α
  best_path : Option (List ℕ)
  best_path_length : WithTop α
  logs : List (α × List ℕ)

/-- One round of the driver body: generate the round's paths, update the
pheromone matrix, append one progress-log entry, and update the global best
on strict improvement. -/
def runRound (n_locations ants : ℕ) (d : ℕ → ℕ → α)
    (alpha beta evaporation_rate Q : α) (fpow : α → α → α)
    (choose : ℕ → ℕ → List α → ℕ) (st : RunState α)
    (starting_point : ℕ) : RunState α :=
  let pr := generate_paths ants starting_point n_locations d st.pheromone
    alpha beta fpow choose
  let paths := pr.1
  let path_lengths := pr.2
  let pher := update_pheromone st.pheromone paths path_lengths evaporation_rate
    Q n_locations
  let m := listMinD path_lengths 0
  let round_best := paths.getD (path_lengths.indexOf m) []
  let logs := st.logs ++ [(m, round_best)]
  if (m : WithTop α) < st.best_path_length then
    ⟨pher, some round_best, (m : WithTop α), logs⟩
  else
    ⟨pher, st.best_path, st.best_path_length, logs⟩

/-- Embedding of the optimization loop of `views.ant_colony_optimization`:
pheromone initialized to all ones, best path `None`, best length `np.inf`,
empty log; then for every starting point and every iteration one round is
executed.  The sampler is indexed by starting point, iteration, ant and
step. -/
def ant_colony_optimization (n_locations : ℕ) (d : ℕ → ℕ → α)
    (ants iterations : ℕ) (alpha beta evaporation_rate Q : α)
    (fpow : α → α → α) (choose : ℕ → ℕ → ℕ → ℕ → List α → ℕ) : RunState α :=
  (List.range n_locations).foldl
    (fun st starting_point =>
      (List.range iterations).foldl
        (fun st2 iteration =>
          runRound n_locations ants d alpha beta evaporation_rate Q fpow
            (choose starting_point iteration) st2 starting_point)
        st)
    ⟨fun _ _ => 1, none, ⊤, []⟩

end Engine

section PheromoneLemmas

variable {α : Type*} [LinearOrderedField α]

theorem depositEdge_apply (M : ℕ → ℕ → α) (i j a b : ℕ) (amt : α) :
    depositEdge M i j amt a b = M a b + if a = i ∧ b = j then amt else 0 := by
  unfold depositEdge matUpdate
  by_cases h : a = i ∧ b = j
  · rcases h with ⟨rfl, rfl⟩
    simp
  · simp [h]

theorem depositList_apply_nodup (es : List (ℕ × ℕ)) (hnd : es.Nodup)
    (M : ℕ → ℕ → α) (amt : α) (a b : ℕ) :
    depositList M es amt a b = M a b + if (a, b) ∈ es then amt else 0 := by
  induction es generalizing M with
  | nil => simp [depositList]
  | cons e rest ih =>
    rcases List.nodup_cons.mp hnd with ⟨hnotmem, hndr⟩
    have hstep : depositList M (e :: rest) amt =
        depositList (depositEdge M e.1 e.2 amt) rest amt := rfl
    rw [hstep, ih hndr, depositEdge_apply]
    by_cases h : (a, b) = e
    · have h1 : a = e.1 ∧ b = e.2 := by
        cases e; exact ⟨congrArg Prod.fst h, congrArg Prod.snd h⟩
      have h2 : (a, b) ∉ rest := h ▸ hnotmem
      rw [if_pos h1, if_neg h2, if_pos (List.mem_cons.mpr (Or.inl h))]
      ring
    · have h1 : ¬(a = e.1 ∧ b = e.2) := by
        intro hc
        exact h (by cases e; cases hc.1; cases hc.2; rfl)
      rw [if_neg h1]
      simp only [List.mem_cons, h, false_or]
      ring

theorem deposit_eq_depositList (M : ℕ → ℕ → α) (path : List ℕ)
    (path_length Q : α) (n : ℕ) :
    deposit M path path_length Q n =
      depositList M (closedEdges path n) (Q / path_length) := by
  unfold deposit depositList closedEdges
  rw [List.foldl_append, List.foldl_map]
  rfl

theorem range_map_getD (l : List ℕ) :
    ∀ m, m ≤ l.length → (List.range m).map (fun k => l.getD k 0) = l.take m := by
  induction l with
  | nil =>
    intro m hm
    have : m = 0 := Nat.le_zero.mp hm
    simp [this]
  | cons a t ih =>
    intro m hm
    cases m with
    | zero => simp
    | succ m' =>
      rw [List.range_succ_eq_map, List.map_cons, List.map_map]
      have hm' : m' ≤ t.length := by simpa using hm
      have comp_eq : ((fun k => (a :: t).getD k 0) ∘ Nat.succ) =
          fun k => t.getD k 0 := by
        funext k
        simp
      rw [comp_eq, ih m' hm']
      simp

theorem closedEdges_map_fst (path : List ℕ) (n : ℕ) (hl : path.length = n)
    (hn : 1 ≤ n) : (closedEdges path n).map Prod.fst = path := by
  have hne : path ≠ [] := by
    intro h
    rw [h] at hl
    simp at hl
    omega
  unfold closedEdges
  rw [List.map_append, List.map_map]
  have comp_eq : (Prod.fst ∘ fun i => (path.getD i 0, path.getD (i + 1) 0)) =
      fun k => path.getD k 0 := by
    funext k
    rfl
  rw [comp_eq, range_map_getD path (n - 1) (by omega)]
  have htake : path.take (n - 1) = path.dropLast := by
    rw [List.dropLast_eq_take, hl]
  have hlast : path.getLastD 0 = path.getLast hne := by
    rw [List.getLastD_eq_getLast?, List.getLast?_eq_getLast path hne]
    rfl
  rw [htake]
  simp only [List.map_cons, List.map_nil, hlast]
  exact List.dropLast_append_getLast hne

theorem closedEdges_nodup (path : List ℕ) (n : ℕ) (hl : path.length = n)
    (hn : 1 ≤ n) (hnd : path.Nodup) : (closedEdges path n).Nodup := by
  apply List.Nodup.of_map Prod.fst
  rw [closedEdges_map_fst path n hl hn]
  exact hnd

theorem foldl_deposit_apply (l : List (List ℕ × α)) (N : ℕ → ℕ → α) (Q : α)
    (n : ℕ) (hn : 1 ≤ n)
    (hl : ∀ pl ∈ l, pl.1.length = n ∧ pl.1.Nodup) (i j : ℕ) :
    (l.foldl (fun acc pl => deposit acc pl.1 pl.2 Q n) N) i j =
      N i j +
        ((l.filter fun pl => decide ((i, j) ∈ closedEdges pl.1 n)).map
          fun pl => Q / pl.2).sum := by
  induction l generalizing N with
  | nil => simp
  | cons pl rest ih =>
    have hpl := hl pl (List.mem_cons_self pl rest)
    have hrest : ∀ q ∈ rest, q.1.length = n ∧ q.1.Nodup := fun q hq =>
      hl q (List.mem_cons_of_mem pl hq)
    rw [List.foldl_cons, ih _ hrest]
    rw [deposit_eq_depositList,
      depositList_apply_nodup _ (closedEdges_nodup pl.1 n hpl.1 hn hpl.2)]
    by_cases hmem : (i, j) ∈ closedEdges pl.1 n
    · simp [List.filter_cons, hmem, add_assoc]
    · simp [List.filter_cons, hmem]

end PheromoneLemmas

section ClaimC3

/-- C3: one call of `update_pheromone` first multiplies every entry by the
evaporation rate once, then adds `Q / path_length` along every consecutive
edge and the closing edge of each of the round's paths, so the new entry
`(i, j)` equals the rate times the old entry plus the sum of
`Q / path_length` over the round's paths whose closed tour uses the
directed edge `(i, j)`. -/
theorem update_pheromone_spec {α : Type*} [LinearOrderedField α]
    (M : ℕ → ℕ → α) (paths : List (List ℕ)) (path_lengths : List α)
    (evaporation_rate Q : α) (n : ℕ) (hn : 1 ≤ n)
    (hpaths : ∀ p ∈ paths, p.length = n ∧ p.Nodup) (i j : ℕ) :
    update_pheromone M paths path_lengths evaporation_rate Q n i j =
      evaporation_rate * M i j +
        (((paths.zip path_lengths).filter
            fun pl => decide ((i, j) ∈ closedEdges pl.1 n)).map
          fun pl => Q / pl.2).sum := by
  unfold update_pheromone
  rw [foldl_deposit_apply _ _ _ _ hn
    (fun pl hpl => hpaths pl.1 (List.of_mem_zip hpl).1) i j]
  rw [evaporate, mul_comm]

/-- Witness for C3: a concrete round with one path `[0, 1]` of length `4`,
`n = 2`, rate `1/2` and `Q = 2`, evaluated at entry `(0, 1)`. -/
theorem update_pheromone_spec_witness :
    update_pheromone (α := ℚ) (fun _ _ => 1) [[0, 1]] [4] (1 / 2) 2 2 0 1 =
      (1 / 2) * 1 +
        (((([[0, 1]] : List (List ℕ)).zip ([4] : List ℚ)).filter
            fun pl => decide ((0, 1) ∈ closedEdges pl.1 2)).map
          fun pl => (2 : ℚ) / pl.2).sum :=
  update_pheromone_spec (fun _ _ => 1) [[0, 1]] [4] (1 / 2) 2 2 (by decide)
    (by decide) 0 1

end ClaimC3

section ClaimC4

theorem depositList_nonneg {α : Type*} [LinearOrderedField α]
    (es : List (ℕ × ℕ)) (M : ℕ → ℕ → α) (amt : α) (hamt : 0 ≤ amt)
    (hM : ∀ a b, 0 ≤ M a b) : ∀ a b, 0 ≤ depositList M es amt a b := by
  induction es generalizing M with
  | nil => exact hM
  | cons e rest ih =>
    intro a b
    have hstep : depositList M (e :: rest) amt =
        depositList (depositEdge M e.1 e.2 amt) rest amt := rfl
    rw [hstep]
    refine ih _ (fun a' b' => ?_) a b
    rw [depositEdge_apply]
    have : (0 : α) ≤ if a' = e.1 ∧ b' = e.2 then amt else 0 := by
      split
      · exact hamt
      · exact le_refl 0
    exact add_nonneg (hM a' b') this

/-- C4: starting from a matrix with nonnegative entries, every entry stays
nonnegative after an arbitrary finite sequence of evaporation and deposit
operations whose rates lie in `[0, 1]` and whose deposits have `Q ≥ 0` and
nonnegative path length. -/
theorem applyOps_nonneg {α : Type*} [LinearOrderedField α] (M : ℕ → ℕ → α)
    (ops : List (PherOp α)) (hM : ∀ i j, 0 ≤ M i j)
    (hops : ∀ op ∈ ops, validOp op) (i j : ℕ) : 0 ≤ applyOps M ops i j := by
  induction ops generalizing M with
  | nil => exact hM i j
  | cons op rest ih =>
    have hop := hops op (List.mem_cons_self op rest)
    have hrest : ∀ q ∈ rest, validOp q := fun q hq =>
      hops q (List.mem_cons_of_mem op hq)
    have hstep : applyOps M (op :: rest) = applyOps (applyOp M op) rest := rfl
    rw [hstep]
    refine ih _ (fun a b => ?_) hrest
    cases op with
    | evap rate =>
      rcases hop with ⟨h0, _⟩
      exact mul_nonneg (hM a b) h0
    | dep path path_length Q n =>
      rcases hop with ⟨hlen, hQ⟩
      have : applyOp M (PherOp.dep path path_length Q n) =
          deposit M path path_length Q n := rfl
      rw [this, deposit_eq_depositList]
      exact depositList_nonneg _ _ _ (div_nonneg hQ hlen) hM a b

/-- Witness for C4: an all-ones matrix stays nonnegative after a concrete
evaporation, a concrete deposit and a second evaporation. -/
theorem applyOps_nonneg_witness :
    0 ≤ applyOps (α := ℚ) (fun _ _ => 1)
      [PherOp.evap (1 / 2), PherOp.dep [0, 1] 4 2 2, PherOp.evap 1] 0 1 :=
  applyOps_nonneg (fun _ _ => 1) _ (fun _ _ => by norm_num)
    (by
      intro op hop
      fin_cases hop <;> constructor <;> norm_num) 0 1

end ClaimC4

section PathLemmas

variable {α : Type*} [LinearOrderedField α]

theorem mem_whereFalse {visited : List Bool} {j : ℕ} :
    j ∈ whereFalse visited ↔
      j < visited.length ∧ visited.getD j true = false := by
  unfold whereFalse
  simp [List.mem_filter, List.mem_range]

theorem whereFalse_ne_nil {visited : List Bool} (h : false ∈ visited) :
    whereFalse visited ≠ [] := by
  rcases List.mem_iff_getElem.mp h with ⟨k, hk, hget⟩
  intro hnil
  have hmem : k ∈ whereFalse visited :=
    mem_whereFalse.mpr ⟨hk, by rw [List.getD_eq_getElem visited true hk]; exact hget⟩
  rw [hnil] at hmem
  exact List.not_mem_nil k hmem

theorem getD_mod_mem {l : List ℕ} (hne : l ≠ []) (c : ℕ) :
    l.getD (c % l.length) 0 ∈ l := by
  have hlen : 0 < l.length := List.length_pos.mpr hne
  have hlt : c % l.length < l.length := Nat.mod_lt c hlen
  rw [List.getD_eq_getElem l 0 hlt]
  exact List.getElem_mem hlt

theorem getD_set_true {visited : List Bool} {k j : ℕ} (hk : k < visited.length) :
    (visited.set k true).getD j true =
      if j = k then true else visited.getD j true := by
  by_cases hj : j < visited.length
  · rw [List.getD_eq_getElem _ _ (by simpa using hj), List.getElem_set,
      List.getD_eq_getElem _ _ hj]
    by_cases h : j = k
    · rw [if_pos h, if_pos h.symm]
    · rw [if_neg h, if_neg (fun hc => h hc.symm)]
  · have hj' : visited.length ≤ j := Nat.le_of_not_lt hj
    rw [List.getD_eq_default _ _ (by simpa using hj'), List.getD_eq_default _ _ hj',
      if_neg (by omega)]

theorem pathCost_concat (d : ℕ → ℕ → α) (path : List ℕ) (c x : ℕ)
    (hlast : path.getLast? = some c) :
    pathCost d (path ++ [x]) = pathCost d path + d c x := by
  induction path with
  | nil => simp at hlast
  | cons a t ih =>
    cases t with
    | nil =>
      have hc : c = a := by
        simp [List.getLast?] at hlast
        exact hlast.symm
      subst hc
      simp [pathCost]
    | cons b t' =>
      have hlast' : (b :: t').getLast? = some c := by
        rw [List.getLast?_cons_cons] at hlast
        exact hlast
      have hstep : (a :: b :: t') ++ [x] = a :: ((b :: t') ++ [x]) := rfl
      rw [hstep]
      have hunfold : pathCost d (a :: ((b :: t') ++ [x])) =
          d a b + pathCost d ((b :: t') ++ [x]) := rfl
      rw [hunfold, ih hlast', pathCost]
      ring

theorem pathCost_eq_rangeSum (d : ℕ → ℕ → α) (p : List ℕ) :
    pathCost d p =
      ((List.range (p.length - 1)).map
        fun i => d (p.getD i 0) (p.getD (i + 1) 0)).sum := by
  induction p with
  | nil => simp [pathCost]
  | cons a t ih =>
    cases t with
    | nil => simp [pathCost]
    | cons b t' =>
      have hunfold : pathCost d (a :: b :: t') = d a b + pathCost d (b :: t') := rfl
      rw [hunfold, ih]
      have hlen : (a :: b :: t').length - 1 = (b :: t').length := by simp
      rw [hlen, List.length_cons, List.range_succ_eq_map, List.map_cons, List.map_map,
        List.sum_cons]
      have hcomp : ((fun i => d ((a :: b :: t').getD i 0) ((a :: b :: t').getD (i + 1) 0)) ∘
          Nat.succ) = fun i => d ((b :: t').getD i 0) ((b :: t').getD (i + 1) 0) := by
        funext i
        simp
      rw [hcomp]
      simp

end PathLemmas

section BuildLoopSpec

variable {α : Type*} [LinearOrderedField α]

theorem buildLoop_spec (pheromone : ℕ → ℕ → α) (d : ℕ → ℕ → α)
    (fpow : α → α → α) (alpha beta : α) (choose : ℕ → List α → ℕ) (n : ℕ) :
    ∀ (fuel : ℕ) (visited : List Bool) (current : ℕ) (path : List ℕ)
      (path_length : α) (t : ℕ),
      visited.length = n →
      (∀ j, j ∈ path ↔ j < n ∧ visited.getD j true = true) →
      path.Nodup → path ≠ [] →
      path.getLast? = some current →
      path_length = pathCost d path →
      n ≤ fuel + path.length →
      (buildLoop pheromone d fpow alpha beta choose fuel visited current path
          path_length t).1.Perm (List.range n) ∧
        (buildLoop pheromone d fpow alpha beta choose fuel visited current path
          path_length t).1.head? = path.head? ∧
        (buildLoop pheromone d fpow alpha beta choose fuel visited current path
          path_length t).2 =
          pathCost d (buildLoop pheromone d fpow alpha beta choose fuel visited
            current path path_length t).1 := by
  intro fuel
  induction fuel with
  | zero =>
    intro visited current path path_length t hvlen hmem hnd hne hlast hcost hfuel
    have hsub : ∀ j ∈ path, j ∈ List.range n := fun j hj =>
      List.mem_range.mpr ((hmem j).mp hj).1
    have hsubperm : List.Subperm path (List.range n) :=
      List.subperm_of_subset hnd hsub
    have hlenle : path.length ≤ n := by simpa using hsubperm.length_le
    have hperm : List.Perm path (List.range n) :=
      hsubperm.perm_of_length_le (by simp; omega)
    exact ⟨hperm, rfl, hcost⟩
  | succ fuel ih =>
    intro visited current path path_length t hvlen hmem hnd hne hlast hcost hfuel
    by_cases hX : false ∈ visited
    · have hunne : whereFalse visited ≠ [] := whereFalse_ne_nil hX
      set nx := (whereFalse visited).getD
        (choose t (calculate_probabilities pheromone current (whereFalse visited) d
            fpow alpha beta) %
          (whereFalse visited).length) 0 with hnx
      have hunfold : buildLoop pheromone d fpow alpha beta choose (fuel + 1) visited
          current path path_length t =
          buildLoop pheromone d fpow alpha beta choose fuel (visited.set nx true) nx
            (path ++ [nx]) (path_length + d current nx) (t + 1) := by
        rw [buildLoop, if_pos hX]
      have hnxmem : nx ∈ whereFalse visited := getD_mod_mem hunne _
      have hnxprop := mem_whereFalse.mp hnxmem
      have hnxlt : nx < n := by
        have := hnxprop.1
        omega
      have hnxfalse : visited.getD nx true = false := hnxprop.2
      have hnotin : nx ∉ path := by
        intro hc
        have htrue := ((hmem nx).mp hc).2
        rw [htrue] at hnxfalse
        exact Bool.noConfusion hnxfalse
      have hmem' : ∀ j, j ∈ path ++ [nx] ↔
          j < n ∧ (visited.set nx true).getD j true = true := by
        intro j
        rw [List.mem_append, List.mem_singleton, getD_set_true hnxprop.1]
        by_cases hj : j = nx
        · subst hj
          rw [if_pos rfl]
          exact ⟨fun _ => ⟨hnxlt, rfl⟩, fun _ => Or.inr rfl⟩
        · rw [if_neg hj]
          constructor
          · intro hin
            rcases hin with hin | hin
            · exact (hmem j).mp hin
            · exact absurd hin hj
          · intro h
            exact Or.inl ((hmem j).mpr h)
      have hnd' : (path ++ [nx]).Nodup := by
        rw [List.nodup_append]
        refine ⟨hnd, List.nodup_singleton nx, ?_⟩
        intro x hx hx'
        rw [List.mem_singleton] at hx'
        subst hx'
        exact hnotin hx
      have hhead : (path ++ [nx]).head? = path.head? := by
        cases path with
        | nil => exact absurd rfl hne
        | cons a s => rfl
      obtain ⟨hperm, hh, hcost'⟩ := ih (visited.set nx true) nx (path ++ [nx])
        (path_length + d current nx) (t + 1) (by simp [hvlen]) hmem' hnd' (by simp)
        (List.getLast?_concat path)
        (by rw [pathCost_concat d path current nx hlast, hcost])
        (by rw [List.length_append, List.length_singleton]; omega)
      rw [hunfold]
      exact ⟨hperm, by rw [hh, hhead], hcost'⟩
    · have hunfold : buildLoop pheromone d fpow alpha beta choose (fuel + 1) visited
          current path path_length t = (path, path_length) := by
        rw [buildLoop, if_neg hX]
      rw [hunfold]
      have hvis : ∀ j, j < n → visited.getD j true = true := by
        intro j hj
        cases hb : visited.getD j true with
        | true => rfl
        | false =>
          exfalso
          have hjlt : j < visited.length := by omega
          rw [List.getD_eq_getElem visited true hjlt] at hb
          exact hX (List.mem_iff_getElem.mpr ⟨j, hjlt, hb⟩)
      have hperm : List.Perm path (List.range n) :=
        (List.perm_ext_iff_of_nodup hnd (List.nodup_range n)).mpr (by
          intro a
          rw [List.mem_range, hmem a]
          exact ⟨fun h => h.1, fun h => ⟨h, hvis a h⟩⟩)
      exact ⟨hperm, rfl, hcost⟩

theorem build_path_spec (pheromone : ℕ → ℕ → α) (d : ℕ → ℕ → α)
    (fpow : α → α → α) (alpha beta : α) (choose : ℕ → List α → ℕ)
    (n starting_point : ℕ) (hstart : starting_point < n) :
    List.Perm (build_path pheromone d fpow alpha beta choose n starting_point).1
        (List.range n) ∧
      (build_path pheromone d fpow alpha beta choose n starting_point).1.head? =
        some starting_point ∧
      (build_path pheromone d fpow alpha beta choose n starting_point).2 =
        pathCost d
          (build_path pheromone d fpow alpha beta choose n starting_point).1 := by
  have hset : starting_point < (List.replicate n false).length := by
    simp [hstart]
  have hinit : ∀ j, j ∈ [starting_point] ↔
      j < n ∧ ((List.replicate n false).set starting_point true).getD j true = true := by
    intro j
    rw [List.mem_singleton, getD_set_true hset]
    by_cases hj : j = starting_point
    · subst hj
      rw [if_pos rfl]
      exact ⟨fun _ => ⟨hstart, rfl⟩, fun _ => rfl⟩
    · rw [if_neg hj]
      constructor
      · intro h
        exact absurd h hj
      · rintro ⟨hjn, hget⟩
        exfalso
        rw [List.getD_eq_getElem _ _ (by simpa using hjn)] at hget
        simp at hget
  obtain ⟨h1, h2, h3⟩ := buildLoop_spec pheromone d fpow alpha beta choose n n
    ((List.replicate n false).set starting_point true) starting_point
    [starting_point] 0 0 (by simp) hinit (List.nodup_singleton _) (by simp) rfl
    (by simp [pathCost]) (by simp)
  unfold build_path
  exact ⟨h1, by rw [h2]; rfl, h3⟩

end BuildLoopSpec

section ClaimC1

/-- C1: for valid inputs (`n ≥ 2`, `ants ≥ 1`, start node in range), every
path returned by `generate_paths` is a permutation of the node indices
`0..n-1` of length `n`, with no duplicates and no omissions, beginning at
the given start node. -/
theorem generate_paths_perm {α : Type*} [LinearOrderedField α]
    (ants starting_point n_locations : ℕ) (d : ℕ → ℕ → α)
    (pheromone : ℕ → ℕ → α) (alpha beta : α) (fpow : α → α → α)
    (choose : ℕ → ℕ → List α → ℕ) (hn : 2 ≤ n_locations) (hants : 1 ≤ ants)
    (hstart : starting_point < n_locations) (p : List ℕ)
    (hp : p ∈ (generate_paths ants starting_point n_locations d pheromone alpha
      beta fpow choose).1) :
    List.Perm p (List.range n_locations) ∧ p.length = n_locations ∧ p.Nodup ∧
      p.head? = some starting_point := by
  simp only [generate_paths, List.mem_map, List.mem_range] at hp
  obtain ⟨pr, ⟨ant, hant, hpr⟩, hfst⟩ := hp
  obtain ⟨h1, h2, h3⟩ := build_path_spec pheromone d fpow alpha beta (choose ant)
    n_locations starting_point hstart
  rw [hpr] at h1 h2
  rw [← hfst]
  refine ⟨h1, ?_, ?_, h2⟩
  · rw [List.Perm.length_eq h1, List.length_range]
  · exact (List.Perm.nodup_iff h1).mpr (List.nodup_range n_locations)

/-- Witness for C1: with three nodes, one ant starting at node `0` and a
sampler that always picks the first unvisited node, the generated path
`[0, 1, 2]` is a permutation of `0..2` starting at `0`. -/
theorem generate_paths_perm_witness :
    List.Perm ([0, 1, 2] : List ℕ) (List.range 3) ∧ ([0, 1, 2] : List ℕ).length = 3 ∧
      ([0, 1, 2] : List ℕ).Nodup ∧ ([0, 1, 2] : List ℕ).head? = some 0 :=
  generate_paths_perm 1 0 3 (fun _ _ => (1 : ℚ)) (fun _ _ => 1) 1 1
    (fun a _ => a) (fun _ _ _ => 0) (by norm_num) (by norm_num) (by norm_num)
    [0, 1, 2] (by decide)

end ClaimC1

section ClaimC2

/-- C2: every path built by `generate_paths` comes with a `path_length`
equal to the sum of the distances of the `n - 1` consecutive edges
`(path[i], path[i+1])` for `i in 0..n-2`, which excludes the closing edge
`(path[n-1], path[0])`. -/
theorem generate_paths_length_spec {α : Type*} [LinearOrderedField α]
    (ants starting_point n_locations : ℕ) (d : ℕ → ℕ → α)
    (pheromone : ℕ → ℕ → α) (alpha beta : α) (fpow : α → α → α)
    (choose : ℕ → ℕ → List α → ℕ) (hstart : starting_point < n_locations)
    (pr : List ℕ × α)
    (hpr : pr ∈ (generate_paths ants starting_point n_locations d pheromone alpha
        beta fpow choose).1.zip
      (generate_paths ants starting_point n_locations d pheromone alpha beta fpow
        choose).2) :
    pr.2 = ((List.range (n_locations - 1)).map
      fun i => d (pr.1.getD i 0) (pr.1.getD (i + 1) 0)).sum := by
  simp only [generate_paths] at hpr
  rw [List.zip_map'] at hpr
  simp only [List.mem_map, List.mem_range] at hpr
  obtain ⟨r, ⟨ant, hant, hr⟩, hpr2⟩ := hpr
  obtain ⟨h1, _, h3⟩ := build_path_spec pheromone d fpow alpha beta (choose ant)
    n_locations starting_point hstart
  rw [hr] at h1 h3
  have hlen : r.1.length = n_locations := by
    rw [List.Perm.length_eq h1, List.length_range]
  have e1 : pr.1 = r.1 := by rw [← hpr2]
  have e2 : pr.2 = r.2 := by rw [← hpr2]
  rw [e1, e2, h3, pathCost_eq_rangeSum, hlen]

/-- Witness for C2: the concrete path `[0, 1, 2]` produced with a constant
unit distance has reported open-tour length `2`, the sum of its two
consecutive edges. -/
theorem generate_paths_length_spec_witness :
    (2 : ℚ) = ((List.range (3 - 1)).map fun _ => (1 : ℚ)).sum :=
  generate_paths_length_spec 1 0 3 (fun _ _ => (1 : ℚ)) (fun _ _ => 1) 1 1
    (fun a _ => a) (fun _ _ _ => 0) (by norm_num) ([0, 1, 2], 2) (by
      norm_num +decide [generate_paths, build_path, buildLoop, whereFalse,
        calculate_probabilities, List.replicate])

end ClaimC2

section ClaimC7

/-- C7: each probability computed by `calculate_probabilities` for an
unvisited node equals that node's score
`pheromone[current, j] ** alpha / distance(current, j) ** beta` divided by
the sum of the scores over all unvisited nodes, and when the score sum is
positive the returned probabilities sum to `1`. -/
theorem calculate_probabilities_spec {α : Type*} [LinearOrderedField α]
    (pheromone : ℕ → ℕ → α) (current_point : ℕ) (unvisited : List ℕ)
    (d : ℕ → ℕ → α) (fpow : α → α → α) (alpha beta : α) (k : ℕ)
    (hk : k < unvisited.length)
    (hS : 0 < (unvisited.map fun j =>
      fpow (pheromone current_point j) alpha /
        fpow (d current_point j) beta).sum) :
    (calculate_probabilities pheromone current_point unvisited d fpow alpha
        beta).getD k 0 =
      (fpow (pheromone current_point (unvisited.getD k 0)) alpha /
          fpow (d current_point (unvisited.getD k 0)) beta) /
        (unvisited.map fun j =>
          fpow (pheromone current_point j) alpha /
            fpow (d current_point j) beta).sum ∧
      (calculate_probabilities pheromone current_point unvisited d fpow alpha
        beta).sum = 1 := by
  simp only [calculate_probabilities]
  constructor
  · have hk1 : k < ((unvisited.map fun j =>
        fpow (pheromone current_point j) alpha /
          fpow (d current_point j) beta).map fun s => s /
        (unvisited.map fun j =>
          fpow (pheromone current_point j) alpha /
            fpow (d current_point j) beta).sum).length := by
      simpa using hk
    have hk2 : k < (unvisited.map fun j =>
        fpow (pheromone current_point j) alpha /
          fpow (d current_point j) beta).length := by
      simpa using hk
    rw [List.getD_eq_getElem _ _ hk1, List.getElem_map, List.getElem_map,
      List.getD_eq_getElem _ _ hk]
  · have hcong : ((unvisited.map fun j =>
        fpow (pheromone current_point j) alpha /
          fpow (d current_point j) beta).map fun s => s /
        (unvisited.map fun j =>
          fpow (pheromone current_point j) alpha /
            fpow (d current_point j) beta).sum) =
        unvisited.map fun j =>
          (fpow (pheromone current_point j) alpha /
            fpow (d current_point j) beta) *
          ((unvisited.map fun j =>
            fpow (pheromone current_point j) alpha /
              fpow (d current_point j) beta).sum)⁻¹ := by
      rw [List.map_map]
      exact List.map_congr_left fun j _ => div_eq_mul_inv _ _
    rw [hcong, List.sum_map_mul_right, mul_inv_cancel₀ (ne_of_gt hS)]

/-- Witness for C7: two unvisited nodes with unit scores give probability
`(1/1) / 2` at index `0` and a probability vector summing to `1`. -/
theorem calculate_probabilities_spec_witness :
    (calculate_probabilities (α := ℚ) (fun _ _ => 1) 0 [1, 2] (fun _ _ => 1)
        (fun a _ => a) 1 1).getD 0 0 =
      ((1 : ℚ) / 1) / (([1, 2] : List ℕ).map fun _ => (1 : ℚ) / 1).sum ∧
      (calculate_probabilities (α := ℚ) (fun _ _ => 1) 0 [1, 2] (fun _ _ => 1)
        (fun a _ => a) 1 1).sum = 1 :=
  calculate_probabilities_spec (fun _ _ => 1) 0 [1, 2] (fun _ _ => 1)
    (fun a _ => a) 1 1 0 (by norm_num) (by norm_num)

end ClaimC7

section ClaimC8

/-- C8: for every point and both metric modes, the distance from a point to
itself is exactly `0`; in fast mode this is because the distance is the
Euclidean distance of the coordinate pairs scaled by `111.32`. -/
theorem distance_self (p : ℝ × ℝ) (speed : String) : distance p p speed = 0 := by
  unfold distance
  split
  · simp
  · unfold geodesicKm
    simp

end ClaimC8

section DriverLemmas

variable {α : Type*} [LinearOrderedField α]

theorem runRound_logs_length (n_locations ants : ℕ) (d : ℕ → ℕ → α)
    (alpha beta evaporation_rate Q : α) (fpow : α → α → α)
    (choose : ℕ → ℕ → List α → ℕ) (st : RunState α) (starting_point : ℕ) :
    (runRound n_locations ants d alpha beta evaporation_rate Q fpow choose st
      starting_point).logs.length = st.logs.length + 1 := by
  simp only [runRound]
  split <;> simp

theorem foldl_logs_length {β : Type*} (f : RunState α → β → RunState α) (k : ℕ)
    (hf : ∀ s x, (f s x).logs.length = s.logs.length + k) (L : List β)
    (st : RunState α) :
    (L.foldl f st).logs.length = st.logs.length + k * L.length := by
  induction L generalizing st with
  | nil => simp
  | cons a L ih =>
    rw [List.foldl_cons, ih, hf, List.length_cons, Nat.mul_succ]
    omega

end DriverLemmas

section ClaimC5

/-- C5: one round of the driver never increases the tracked best path
length: after `runRound`, `best_path_length` is at most its value before
the round, for every driver state. -/
theorem runRound_best_path_length_le {α : Type*} [LinearOrderedField α]
    (n_locations ants : ℕ) (d : ℕ → ℕ → α)
    (alpha beta evaporation_rate Q : α) (fpow : α → α → α)
    (choose : ℕ → ℕ → List α → ℕ) (st : RunState α) (starting_point : ℕ) :
    (runRound n_locations ants d alpha beta evaporation_rate Q fpow choose st
      starting_point).best_path_length ≤ st.best_path_length := by
  simp only [runRound]
  split
  · next h => exact le_of_lt h
  · exact le_refl _

end ClaimC5

section ClaimC9

/-- C9: every round appends exactly one progress-log entry, and a full run
of the driver performs the two nested loops over the `n` start nodes and
the `iterations` iterations, so the final progress log has exactly
`n * iterations` entries. -/
theorem ant_colony_optimization_logs_length {α : Type*} [LinearOrderedField α]
    (n_locations : ℕ) (d : ℕ → ℕ → α) (ants iterations : ℕ)
    (alpha beta evaporation_rate Q : α) (fpow : α → α → α)
    (choose : ℕ → ℕ → ℕ → ℕ → List α → ℕ) :
    (∀ (choose1 : ℕ → ℕ → List α → ℕ) (st : RunState α) (starting_point : ℕ),
      (runRound n_locations ants d alpha beta evaporation_rate Q fpow choose1
        st starting_point).logs.length = st.logs.length + 1) ∧
      (ant_colony_optimization n_locations d ants iterations alpha beta
        evaporation_rate Q fpow choose).logs.length =
        n_locations * iterations := by
  constructor
  · intro choose1 st starting_point
    exact runRound_logs_length n_locations ants d alpha beta evaporation_rate Q
      fpow choose1 st starting_point
  · unfold ant_colony_optimization
    rw [foldl_logs_length _ iterations (fun s start => ?_) (List.range n_locations)]
    · simp [Nat.mul_comm]
    · rw [foldl_logs_length _ 1 (fun s2 iter => runRound_logs_length n_locations
        ants d alpha beta evaporation_rate Q fpow (choose start iter) s2 start)
        (List.range iterations)]
      simp

end ClaimC9

section ClaimC10

/-- C10: the global best is updated only on strict improvement: whenever the
incumbent `best_path_length` is at most the round's minimum path length
(in particular on an exact tie), both `best_path` and `best_path_length`
are left unchanged by the round. -/
theorem runRound_keeps_best_on_tie {α : Type*} [LinearOrderedField α]
    (n_locations ants : ℕ) (d : ℕ → ℕ → α)
    (alpha beta evaporation_rate Q : α) (fpow : α → α → α)
    (choose : ℕ → ℕ → List α → ℕ) (st : RunState α) (starting_point : ℕ)
    (h : st.best_path_length ≤
      ((listMinD (generate_paths ants starting_point n_locations d st.pheromone
        alpha beta fpow choose).2 0 : α) : WithTop α)) :
    (runRound n_locations ants d alpha beta evaporation_rate Q fpow choose st
        starting_point).best_path = st.best_path ∧
      (runRound n_locations ants d alpha beta evaporation_rate Q fpow choose st
        starting_point).best_path_length = st.best_path_length := by
  simp only [runRound]
  rw [if_neg (not_lt.mpr h)]
  exact ⟨rfl, rfl⟩

/-- Witness for C10: with incumbent best length `0` and a round whose
minimum path length is `1`, the round changes neither the best path nor the
best length. -/
theorem runRound_keeps_best_on_tie_witness :
    (runRound (α := ℚ) 2 1 (fun _ _ => 1) 1 1 (1 / 2) 1 (fun a _ => a)
        (fun _ _ _ => 0) ⟨fun _ _ => 1, some [9], ((0 : ℚ) : WithTop ℚ), []⟩
        0).best_path = some [9] ∧
      (runRound (α := ℚ) 2 1 (fun _ _ => 1) 1 1 (1 / 2) 1 (fun a _ => a)
        (fun _ _ _ => 0) ⟨fun _ _ => 1, some [9], ((0 : ℚ) : WithTop ℚ), []⟩
        0).best_path_length = ((0 : ℚ) : WithTop ℚ) :=
  runRound_keeps_best_on_tie 2 1 (fun _ _ => 1) 1 1 (1 / 2) 1 (fun a _ => a)
    (fun _ _ _ => 0) ⟨fun _ _ => 1, some [9], ((0 : ℚ) : WithTop ℚ), []⟩ 0 (by
      norm_num +decide [generate_paths, build_path, buildLoop, whereFalse,
        calculate_probabilities, List.replicate, listMinD])

end ClaimC10

section ClaimC6

/-- C6: the code has no input validation at all.  Called on a single
location (`n = 1`) with one ant and one iteration, the embedded driver
still performs a full optimization round: it appends one progress-log entry
whose recorded minimum path length is `0` — in the Python source this same
round divides `Q` by that zero `path_length` inside `update_pheromone`
(a `ZeroDivisionError`, swallowed by the caller's bare `except`), instead
of failing fast with a descriptive invalid-input error. -/
theorem ant_colony_optimization_n1_round :
    (ant_colony_optimization (α := ℚ) 1 (fun _ _ => 1) 1 1 1 1 (1 / 2) 1
        (fun a _ => a) (fun _ _ _ _ _ => 0)).logs = [(0, [0])] := by
  norm_num +decide [ant_colony_optimization, runRound, generate_paths,
    build_path, buildLoop, whereFalse, calculate_probabilities, listMinD,
    List.replicate, List.range_succ]

end ClaimC6

end AntColony
